import Mathlib

/-!
Shallow embedding of `src/data_processing/location_processor.py` from the
repository `darekwojciechowski/look-at-the-cash-bubblin`, together with proofs
about the embedded functions.

Strings are modelled as `List Char` (Python 3 strings are sequences of Unicode
code points, which matches `Char` lists).  Each compiled regular expression of
the module is hand-specialised to an executable Lean function with Python `re`
semantics (leftmost scan, greedy or lazy quantifiers as written, `IGNORECASE`
via a lower-casing map, `\b` word boundaries against the original text, `$`
matching at the end or before a single trailing newline, `.` not matching a
newline).  `re.sub`-style global substitution is a fuel-driven left-to-right
scan replacing non-overlapping matches, exactly as CPython does.

Three character classifiers model Python's classes over the repertoire this
module actually manipulates (ASCII, Latin-1, Latin Extended-A, Greek,
Cyrillic, the Kelvin sign):
* `isPySpace` models `str.isspace` / regex `\s` (full Unicode table);
* `isWordCharM` models regex `\w` restricted to the Latin/Greek/Cyrillic
  letter blocks (all other code points are treated as non-word);
* `pyLowerChar` models `str.lower` restricted to ASCII, Latin-1, the Polish
  letters of Latin Extended-A and the Kelvin sign (identity elsewhere).
-/

/-- Python whitespace class on code points: the exact set accepted by
`str.isspace` and matched by `\s` in `re` on `str` patterns. -/
def isPySpaceN (n : Nat) : Bool :=
  (9 ≤ n && n ≤ 13) || n == 32 || (28 ≤ n && n ≤ 31) || n == 0x85 || n == 0xA0 ||
  n == 0x1680 || (0x2000 ≤ n && n ≤ 0x200A) || n == 0x2028 || n == 0x2029 ||
  n == 0x202F || n == 0x205F || n == 0x3000

/-- Whitespace test on characters (model of `str.isspace` / regex `\s`). -/
def isPySpace (c : Char) : Bool := isPySpaceN c.toNat

/-- Model of the regex `\w` class on code points, restricted to the character
repertoire handled by the location processor: ASCII alphanumerics and
underscore, Latin-1 letters, Latin Extended-A/B, Greek, Cyrillic and the
Kelvin sign.  All other code points count as non-word characters. -/
def isWordN (n : Nat) : Bool :=
  (48 ≤ n && n ≤ 57) || (65 ≤ n && n ≤ 90) || n == 95 || (97 ≤ n && n ≤ 122) ||
  (192 ≤ n && n ≤ 591 && n != 215 && n != 247) ||
  (0x370 ≤ n && n ≤ 0x3FF) || (0x400 ≤ n && n ≤ 0x4FF) || n == 0x212A

/-- Word-character test on characters (model of regex `\w`). -/
def isWordCharM (c : Char) : Bool := isWordN c.toNat

/-- Model of `str.lower` on code points, restricted to ASCII upper case,
Latin-1 upper case, the Polish upper-case letters of Latin Extended-A and the
Kelvin sign; identity on every other code point. -/
def pyLowerN (n : Nat) : Nat :=
  if 65 ≤ n ∧ n ≤ 90 then n + 32
  else if 192 ≤ n ∧ n ≤ 222 ∧ n ≠ 215 then n + 32
  else if n = 0x104 ∨ n = 0x106 ∨ n = 0x118 ∨ n = 0x141 ∨ n = 0x143 ∨
          n = 0x15A ∨ n = 0x179 ∨ n = 0x17B then n + 1
  else if n = 0x212A then 107
  else n

theorem pyLowerN_valid (n : Nat) (h : Nat.isValidChar n) :
    Nat.isValidChar (pyLowerN n) := by
  unfold pyLowerN
  rcases h with h | ⟨h1, h2⟩ <;> split_ifs <;>
    first
      | exact Or.inl (by omega)
      | exact Or.inr ⟨by omega, by omega⟩

/-- Model of `str.lower` on characters. -/
def pyLowerChar (c : Char) : Char := Char.ofNat (pyLowerN c.toNat)

theorem toNat_ofNat_valid (n : Nat) (h : Nat.isValidChar n) :
    (Char.ofNat n).toNat = n := by
  simp [Char.ofNat, h, Char.ofNatAux, Char.toNat, UInt32.toNat, BitVec.toNat_ofNatLt]

theorem pyLowerChar_toNat (c : Char) :
    (pyLowerChar c).toNat = pyLowerN c.toNat := by
  have hv : Nat.isValidChar c.toNat := by
    rcases c.valid with h | ⟨h1, h2⟩
    · exact Or.inl h
    · exact Or.inr ⟨h1, h2⟩
  exact toNat_ofNat_valid _ (pyLowerN_valid _ hv)

/-- Lower-casing maps word characters to word characters (in the restricted
model, needed to transfer `\b` information along case-insensitive matches). -/
theorem isWord_pyLower (c : Char) (h : isWordCharM c = true) :
    isWordCharM (pyLowerChar c) = true := by
  unfold isWordCharM at *
  rw [pyLowerChar_toNat]
  unfold pyLowerN
  simp only [isWordN] at *
  split_ifs <;> simp_all <;> omega

/-- Word characters are never whitespace. -/
theorem isWord_not_space (c : Char) (h : isWordCharM c = true) :
    isPySpace c = false := by
  cases hsp : isPySpace c with
  | false => rfl
  | true =>
    exfalso
    unfold isWordCharM isWordN at h
    unfold isPySpace isPySpaceN at hsp
    simp only [Bool.or_eq_true, Bool.and_eq_true, decide_eq_true_eq, beq_iff_eq,
      bne_iff_ne] at h hsp
    omega

/-- Characters stripped by `str.strip(' ,')`. -/
def isStripSC (c : Char) : Bool := c == ' ' || c == ','

/-- Word characters are never stripped by `strip(' ,')`. -/
theorem isWord_not_stripSC (c : Char) (h : isWordCharM c = true) :
    isStripSC c = false := by
  cases hs : isStripSC c with
  | false => rfl
  | true =>
    exfalso
    unfold isStripSC at hs
    simp only [Bool.or_eq_true, beq_iff_eq] at hs
    rcases hs with hs | hs <;> subst hs <;> revert h <;> decide

/-! ### Generic list helpers (Python string primitives) -/

/-- Case-sensitive literal prefix test (used for `str.replace`,
`str.startswith` and literal regex fragments). -/
def startsB : List Char → List Char → Bool
  | [], _ => true
  | _ :: _, [] => false
  | p :: ps, c :: cs => if p = c then startsB ps cs else false

/-- Case-insensitive literal match: consumes a lower-case pattern against the
input (each input character lower-cased first, modelling `re.IGNORECASE`) and
returns the rest of the input on success. -/
def dropCIL : List Char → List Char → Option (List Char)
  | [], s => some s
  | _ :: _, [] => none
  | p :: ps, c :: cs => if pyLowerChar c = p then dropCIL ps cs else none

/-- Case-insensitive literal match that also returns the last input character
of the matched region (needed for trailing `\b` tests). -/
def ciLast : List Char → List Char → Option Char
  | [], _ => none
  | [p], c :: _ => if pyLowerChar c = p then some c else none
  | p :: ps, c :: cs => if pyLowerChar c = p then ciLast ps cs else none
  | _ :: _, [] => none

/-- Length of the maximal whitespace run at the head (greedy `\s*`). -/
def wsLen (s : List Char) : Nat := (s.takeWhile isPySpace).length

/-- Python substring test `needle in haystack` (empty needle always found). -/
def containsSubB (l : List Char) (p : List Char) : Bool :=
  match l with
  | [] => p.isEmpty
  | _ :: rest => startsB p l || containsSubB rest p

/-- Python `str.split(sep)` for a non-empty separator, leftmost
non-overlapping occurrences.  The fuel is the input length. -/
def splitOnLit (sep : List Char) : Nat → List Char → List (List Char)
  | 0, s => [s]
  | _ + 1, [] => [[]]
  | fuel + 1, c :: rest =>
    if startsB sep (c :: rest) then
      [] :: splitOnLit sep fuel (List.drop (sep.length - 1) rest)
    else
      match splitOnLit sep fuel rest with
      | [] => [[c]]
      | h :: t => (c :: h) :: t

/-- Last element of a non-empty split result (Python `split(...)[-1]`). -/
def lastD (l : List (List Char)) (d : List Char) : List Char := l.getLastD d

/-- Python `str.strip(chars)`: drop the given class from both ends. -/
def pyStrip (p : Char → Bool) (l : List Char) : List Char :=
  ((l.dropWhile p).reverse.dropWhile p).reverse

/-! ### `re.sub` engine

`subAllG m fuel s` scans `s` left to right.  At each position it asks the
matcher `m` for a match; `m s = some (n, r)` means the pattern matches a
non-empty region of `n` characters at the head of `s` and is to be replaced
by `r` (which may depend on captured groups).  On a match the engine emits
`r` and resumes after the matched region, exactly like CPython's `re.sub`;
otherwise it copies one character.  The fuel is the input length. -/
def subAllG (m : List Char → Option (Nat × List Char)) :
    Nat → List Char → List Char
  | 0, s => s
  | _ + 1, [] => []
  | fuel + 1, c :: rest =>
    match m (c :: rest) with
    | some (n, r) => r ++ subAllG m fuel (List.drop n (c :: rest))
    | none => c :: subAllG m fuel rest

/-- Run a global substitution with fuel equal to the input length. -/
def pySub (m : List Char → Option (Nat × List Char)) (s : List Char) :
    List Char :=
  subAllG m s.length s

/-! ### Word-boundary substitution engine for `normalize_polish_names`

Models `re.sub(r'\b' + re.escape(key) + r'\b', val, s, flags=re.IGNORECASE)`.
`\b` is evaluated against the original text, so the engine carries the
word-ness of the previous original character (`false` at the start). -/

/-- Word-ness of the head character of `s` (`false` at the end of input). -/
def headWordB (s : List Char) : Bool :=
  match s.head? with
  | some c0 => isWordCharM c0
  | none => false

/-- Word-ness of the original character right after the matched key. -/
def nextWordB (key s : List Char) : Bool := headWordB (s.drop key.length)

/-- Attempt the pattern `\b key \b` (case-insensitive) at the head of `s`,
where `pw` is the word-ness of the character just before `s` in the original
text.  Returns the last input character of the matched region. -/
def wbMatch (pw : Bool) (key : List Char) (s : List Char) : Option Char :=
  match ciLast key s with
  | none => none
  | some lc =>
    if (pw != headWordB s) && (isWordCharM lc != nextWordB key s) then some lc
    else none

/-- The scanning engine for one whole-word case-insensitive replacement. -/
def subWBF (key val : List Char) : Nat → Bool → List Char → List Char
  | 0, _, s => s
  | _ + 1, _, [] => []
  | fuel + 1, pw, c :: rest =>
    match wbMatch pw key (c :: rest) with
    | some lc =>
      val ++ subWBF key val fuel (isWordCharM lc) (List.drop key.length (c :: rest))
    | none => c :: subWBF key val fuel (isWordCharM c) rest

/-- One whole-word case-insensitive global replacement, as used for each
entry of the diacritic lexicon. -/
def reSubWB (key val : List Char) (s : List Char) : List Char :=
  subWBF key val s.length false s

/-! ### Static tables of `location_processor.py` -/

/-- `_PREFIXES_TO_REMOVE`: metadata prefixes stripped during cleanup. -/
def prefixesToRemove : List (List Char) :=
  ["miasto :", "miasto:", "adres :", "adres:", "lokalizacja :", "lokalizacja:"
  ].map String.toList

/-- `_POLISH_REPLACEMENTS`: the diacritic lexicon, in dictionary insertion
order (Python dicts preserve insertion order). -/
def polishRepl : List (List Char × List Char) :=
  [("lodz", "łódź"), ("krakow", "kraków"), ("poznan", "poznań"),
   ("wroclaw", "wrocław"), ("gdansk", "gdańsk"), ("czestochowa", "częstochowa"),
   ("torun", "toruń"), ("bialystok", "białystok"), ("rzeszow", "rzeszów"),
   ("piotrkow", "piotrków"), ("walbrzych", "wałbrzych"),
   ("wloclawek", "włocławek"), ("jelenia gora", "jelenia góra"),
   ("nowy sacz", "nowy sącz"), ("zielona gora", "zielona góra"),
   ("kosciuszki", "kościuszki"), ("pilsudskiego", "piłsudskiego"),
   ("slowackiego", "słowackiego"), ("zeromskiego", "żeromskiego"),
   ("swietokrzyska", "świętokrzyska"), ("stanislawa", "stanisława"),
   ("wladyslawa", "władysława"), ("jozefa", "józefa"), ("legionow", "legionów"),
   ("zwyciestwa", "zwycięstwa"), ("polnocna", "północna"),
   ("poludniowa", "południowa"), ("krolowej", "królowej"),
   ("powstancow", "powstańców"), ("sw.", "św."), ("sw ", "św. ")
  ].map (fun kv => (kv.1.toList, kv.2.toList))

/-- `_ADDRESS_INDICATORS`. -/
def addressIndicators : List (List Char) :=
  ["ul.", "al.", "pl.", "os.", "centrum", "calle", "avenida", "avda.",
   "paseo", "plaza", "via", "viale", "piazza", "corso", "strada"
  ].map String.toList

/-- `_MAPS_STREET_TOKENS`. -/
def mapsStreetTokens : List (List Char) :=
  ["ul.", "al.", "pl.", "os.", "aleja", "ulica", "plac", "osiedle",
   "street", "st.", "avenue", "ave.", "road", "rd.", "boulevard", "blvd.",
   "lane", "ln.", "drive", "dr.", "calle", "avenida", "avda.", "paseo",
   "plaza", "via", "viale", "piazza", "corso", "strada"
  ].map String.toList

/-- `_MAPS_CITY_KEYWORDS`. -/
def mapsCityKeywords : List (List Char) :=
  ["warszawa", "kraków", "łódź", "wrocław", "poznań", "gdańsk", "szczecin",
   "bydgoszcz", "lublin", "katowice", "białystok", "gdynia", "częstochowa",
   "radom", "sosnowiec", "toruń", "kielce", "gliwice", "zabrze", "bytom",
   "olsztyn", "bielsko-biała", "rzeszów",
   "madrid", "barcelona", "valencia", "sevilla", "zaragoza", "málaga",
   "murcia", "palma", "bilbao", "alicante", "córdoba", "valladolid",
   "granada", "salamanca", "toledo",
   "roma", "milano", "napoli", "torino", "palermo", "genova", "bologna",
   "firenze", "bari", "catania", "venezia", "verona", "messina", "padova",
   "trieste", "brescia", "parma", "modena"
  ].map String.toList

/-- `_EXCLUDE_TERMS`. -/
def excludeTerms : List (List Char) :=
  ["nan", "null", "zakup w terminalu", "pc game purchase", "grocery store",
   "groceries", "store", "shop", "market"
  ].map String.toList

/-! ### The compiled regexes, hand-specialised as matchers for `subAllG` -/

/-- Matcher for `_COUNTRY_FIELD_RE = r'\s*kraj\s*:\s*[^,]*'` (IGNORECASE),
substituted by the empty string.  After the colon, greedy `\s*` followed by
greedy `[^,]*` together consume the maximal comma-free run. -/
def countryM (s : List Char) : Option (Nat × List Char) :=
  let w := wsLen s
  match dropCIL "kraj".toList (s.drop w) with
  | none => none
  | some t1 =>
    let w2 := wsLen t1
    if startsB [':'] (t1.drop w2) then
      some (w + 4 + w2 + 1 +
        ((t1.drop (w2 + 1)).takeWhile (fun c => c ≠ ',')).length, [])
    else none

/-- Matcher for `_COLON_SPACING_RE = r'\s*:\s*'`, substituted by `", "`. -/
def colonM (s : List Char) : Option (Nat × List Char) :=
  let w := wsLen s
  if startsB [':'] (s.drop w) then
    some (w + 1 + wsLen (s.drop (w + 1)), (", ").toList)
  else none

/-- Matcher for `_MULTIPLE_SPACE_RE = r'\s+'`, substituted by `" "`. -/
def spaceM (s : List Char) : Option (Nat × List Char) :=
  match s with
  | c :: _ => if isPySpace c then some (wsLen s, [' ']) else none
  | [] => none

/-- Matcher for `_DOUBLE_COMMA_RE = r',\s*,'`, substituted by `","`. -/
def dcommaM (s : List Char) : Option (Nat × List Char) :=
  match s with
  | ',' :: t =>
    if startsB [','] (t.drop (wsLen t)) then some (1 + wsLen t + 1, [','])
    else none
  | _ => none

/-- Matcher for a case-sensitive literal (Python `str.replace(pat, repl)`). -/
def litM (pat repl : List Char) (s : List Char) : Option (Nat × List Char) :=
  if startsB pat s then some (pat.length, repl) else none

/-! ### `clean_location_text` and `normalize_polish_names` -/

/-- Embedding of `clean_location_text`: remove `kraj: ...` fields, strip the
metadata prefixes (case-sensitively, via `str.replace`), turn colons into
`", "`, collapse whitespace runs, collapse comma pairs, and strip `' ,'`
from both ends. -/
def clean_location_text (l : List Char) : List Char :=
  if l.isEmpty then [] else
  let a := pySub countryM l
  let b := prefixesToRemove.foldl (fun acc p => pySub (litM p [' ']) acc) a
  let c := pySub colonM b
  let d := pySub spaceM c
  let e := pySub dcommaM d
  pyStrip isStripSC e

/-- Embedding of `normalize_polish_names`: one whole-word case-insensitive
replacement per lexicon entry, in insertion order. -/
def normalize_polish_names (l : List Char) : List Char :=
  if l.isEmpty then [] else
  polishRepl.foldl (fun acc kv => reSubWB kv.1 kv.2 acc) l

/-- Embedding of `_finalise_location`. -/
def finaliseLocation (l : List Char) : List Char :=
  normalize_polish_names (clean_location_text l)

/-! ### The structured-address regex `_STRUCTURED_ADDRESS_RE`

Pattern (IGNORECASE, used with `re.search`):
`adres\s*:\s*(?P<address>.*?)\s*(?:miasto\s*:\s*(?P<city>.*?))?(?:kraj\s*:\s*.*)?$`

`.` does not match a newline, and `$` matches at the end of the string or
just before a single trailing newline.  Lazy groups take the shortest
successful capture; greedy `\s*` between lazy groups collapses to "skip the
maximal whitespace run" (shorter runs never enable additional matches, since
a whitespace character can satisfy neither the following literal nor `$`). -/

/-- `$` of Python `re` without `MULTILINE`: end of input, or a position
followed only by one final newline. -/
def dollarOk : List Char → Bool
  | [] => true
  | ['\n'] => true
  | _ => false

/-- Test `kraj\s*:\s*.*$` at the head of `u` (the optional country group
followed by the anchor). -/
def krajOk (u : List Char) : Bool :=
  match dropCIL "kraj".toList u with
  | none => false
  | some t1 =>
    let w2 := wsLen t1
    if startsB [':'] (t1.drop w2) then
      let after := t1.drop (w2 + 1)
      let v := after.dropWhile isPySpace
      let v1 := match v.reverse with
        | '\n' :: r => r.reverse
        | _ => v
      ! v1.contains '\n'
    else false

/-- What may legally follow the `city` capture: the optional `kraj` group or
directly the `$` anchor. -/
def cityTailOk (u : List Char) : Bool := krajOk u || dollarOk u

/-- Lazy scan for the `city` capture: the shortest newline-free prefix whose
remainder satisfies `cityTailOk`. -/
def cityScan : List Char → Option (List Char)
  | [] => if cityTailOk [] then some [] else none
  | c :: rest =>
    if cityTailOk (c :: rest) then some []
    else if c = '\n' then none
    else (cityScan rest).map (fun l => c :: l)

/-- Test `miasto\s*:\s*` at the head of `u`, returning the position where the
`city` capture starts. -/
def miastoAt (u : List Char) : Option (List Char) :=
  match dropCIL "miasto".toList u with
  | none => none
  | some t1 =>
    let w2 := wsLen t1
    if startsB [':'] (t1.drop w2) then
      some ((t1.drop (w2 + 1)).dropWhile isPySpace)
    else none

/-- What may follow the `address` capture:
`\s*(?:miasto\s*:\s*(?P<city>.*?))?(?:kraj\s*:\s*.*)?$`.
Returns `some cityOpt` on success. -/
def addrTail (t : List Char) : Option (Option (List Char)) :=
  let t1 := t.dropWhile isPySpace
  match miastoAt t1 with
  | some t2 =>
    match cityScan t2 with
    | some city => some (some city)
    | none => if cityTailOk t1 then some none else none
  | none => if cityTailOk t1 then some none else none

/-- Lazy scan for the `address` capture: the shortest newline-free prefix
whose remainder satisfies `addrTail`. -/
def addressScan : List Char → Option (List Char × Option (List Char))
  | [] => (addrTail []).map (fun co => ([], co))
  | c :: rest =>
    match addrTail (c :: rest) with
    | some co => some ([], co)
    | none =>
      if c = '\n' then none
      else (addressScan rest).map (fun p => (c :: p.1, p.2))

/-- Test `adres\s*:\s*` at the head of `s`, returning the position where the
`address` capture starts. -/
def adresAt (s : List Char) : Option (List Char) :=
  match dropCIL "adres".toList s with
  | none => none
  | some t1 =>
    let w := wsLen t1
    if startsB [':'] (t1.drop w) then
      some ((t1.drop (w + 1)).dropWhile isPySpace)
    else none

/-- `_STRUCTURED_ADDRESS_RE.search`: leftmost position where the whole
pattern matches, yielding the `address` and optional `city` captures. -/
def structuredSearch : List Char → Option (List Char × Option (List Char))
  | [] => none
  | c :: rest =>
    match adresAt (c :: rest) with
    | some t0 =>
      match addressScan t0 with
      | some r => some r
      | none => structuredSearch rest
    | none => structuredSearch rest

/-! ### `_split_parts`, payload extraction and the priority chain -/

/-- A Python value passed to `extract_location_from_data`
(`str | float | None`).  A finite float is represented by its CPython
`str()` rendering; `pd.isna` is `True` exactly on `None` and `nan`. -/
inductive PyVal where
  | none
  | str (s : String)
  | num (isNan : Bool) (repr : String)
deriving DecidableEq

/-- `str(value)` for the modelled values. -/
def pyStr : PyVal → List Char
  | .none => "None".toList
  | .str s => s.toList
  | .num true _ => "nan".toList
  | .num false r => r.toList

/-- The guard `data_string is None or data_string == '' or pd.isna(data_string)`. -/
def pyNullish : PyVal → Bool
  | .none => true
  | .str s => s = ""
  | .num isNan _ => isNan

/-- Embedding of `_split_parts`: split on `'//'`, strip each part, keep the
non-empty ones. -/
def splitParts (v : PyVal) : List (List Char) :=
  let s := pyStr v
  (splitOnLit ('/' :: ['/']) s.length s).filterMap (fun p =>
    let q := pyStrip isPySpace p
    if q.isEmpty then Option.none else some q)

/-- `re.split(r'(?i)kraj\s*:\s*', payload, maxsplit=1)[0]`: text before the
first `kraj`-field marker (the whole payload if there is none). -/
def krajSplitHead : List Char → List Char
  | [] => []
  | c :: rest =>
    let hit := match dropCIL "kraj".toList (c :: rest) with
      | some t1 => startsB [':'] (t1.drop (wsLen t1))
      | Option.none => false
    if hit then [] else c :: krajSplitHead rest

/-- Python `str.rpartition(':')` restricted to the two parts around the last
colon (the input is only used when a colon is known to be present). -/
def rpartitionColon (l : List Char) : List Char × List Char :=
  let r := l.reverse
  let after := r.takeWhile (fun c => c ≠ ':')
  let before := r.drop (after.length + 1)
  (before.reverse, after.reverse)

/-- Embedding of `_extract_address_payload`. -/
def extractAddressPayload (payload : List Char) : Option (List Char) :=
  match structuredSearch payload with
  | some (addr, cityOpt) =>
    let address := pyStrip isStripSC addr
    let city := pyStrip isStripSC (cityOpt.getD [])
    if !address.isEmpty && !city.isEmpty then
      some (address ++ (", ").toList ++ city)
    else if !address.isEmpty then some address
    else if !city.isEmpty then some city
    else Option.none
  | Option.none =>
    let wc := pyStrip isStripSC (krajSplitHead payload)
    if wc.isEmpty then Option.none
    else if wc.contains ':' then
      let ac := rpartitionColon wc
      let a := pyStrip isStripSC ac.1
      let c := pyStrip isStripSC ac.2
      if !a.isEmpty && !c.isEmpty then some (a ++ (", ").toList ++ c)
      else some wc
    else some wc

/-- `re.split(r'(?i)lokalizacja\s*:\s*', working, maxsplit=1)`: text after
the first `lokalizacja:` marker, or `none` when the marker never matches. -/
def lokSplitTail : List Char → Option (List Char)
  | [] => Option.none
  | c :: rest =>
    match dropCIL "lokalizacja".toList (c :: rest) with
    | some t1 =>
      let w := wsLen t1
      if startsB [':'] (t1.drop w) then
        some ((t1.drop (w + 1)).drop (wsLen (t1.drop (w + 1))))
      else lokSplitTail rest
    | Option.none => lokSplitTail rest

/-- Embedding of `_parse_structured_part`. -/
def parseStructuredPart (part : List Char) : Option (List Char) :=
  let lowered := part.map pyLowerChar
  if !(containsSubB lowered ("lokalizacja").toList &&
       containsSubB lowered ("adres").toList) then Option.none
  else
    let dashSep := (" - ").toList
    let candidate := pyStrip isPySpace (lastD (splitOnLit dashSep part.length part) part)
    let working :=
      if containsSubB (candidate.map pyLowerChar) ("lokalizacja").toList then candidate
      else part
    match lokSplitTail working with
    | some payload => extractAddressPayload payload
    | Option.none => Option.none

/-- Embedding of `_extract_dash_part`. -/
def extractDashPart (part : List Char) : Option (List Char) :=
  let dashSep := (" - ").toList
  if !containsSubB part dashSep then Option.none
  else if containsSubB (part.map pyLowerChar) ("lokalizacja").toList then Option.none
  else
    let candidate := pyStrip isPySpace (lastD (splitOnLit dashSep part.length part) part)
    if !candidate.isEmpty && !excludeTerms.contains (candidate.map pyLowerChar) then
      some candidate
    else Option.none

/-- Model of `\d` restricted to ASCII digits (the only digits this module's
inputs and tables use). -/
def isDigitB (c : Char) : Bool := c.isDigit

/-- `_DIGIT_RE.search`: some digit occurs in the text. -/
def hasDigitB (l : List Char) : Bool := l.any isDigitB

/-- One attempt of `_THREE_TOKEN_NUMBER_RE = r'\w+\s+\w+\s+\d+'` at a fixed
position (maximal-munch is complete here because the `\w`, `\s`, `\d`
classes involved are pairwise compatible: consecutive quantifiers range over
disjoint classes, except `\d ⊆ \w` which only occurs last). -/
def ttnAt (s : List Char) : Bool :=
  let w1 := (s.takeWhile isWordCharM).length
  if w1 = 0 then false else
  let r1 := s.drop w1
  let s1 := wsLen r1
  if s1 = 0 then false else
  let r2 := r1.drop s1
  let w2 := (r2.takeWhile isWordCharM).length
  if w2 = 0 then false else
  let r3 := r2.drop w2
  let s2 := wsLen r3
  if s2 = 0 then false else
  match (r3.drop s2).head? with
  | some d => isDigitB d
  | Option.none => false

/-- `_THREE_TOKEN_NUMBER_RE.search`: the pattern matches somewhere. -/
def ttnScan : List Char → Bool
  | [] => false
  | c :: rest => ttnAt (c :: rest) || ttnScan rest

/-- Embedding of `_looks_like_address`. -/
def looksLikeAddress (part : List Char) : Bool :=
  let lowered := part.map pyLowerChar
  if excludeTerms.contains lowered then false
  else if addressIndicators.any (fun k => containsSubB lowered k) then true
  else if ttnScan part then true
  else hasDigitB part && decide (8 < part.length)

/-- The four-priority chain of `extract_location_from_data`, over the split
parts. -/
def extractFromParts (parts : List (List Char)) : List Char :=
  match parts.findSome? parseStructuredPart with
  | some s => finaliseLocation s
  | Option.none =>
  match parts.findSome? extractDashPart with
  | some s => finaliseLocation s
  | Option.none =>
  match parts.find? looksLikeAddress with
  | some p => finaliseLocation p
  | Option.none =>
  match parts.find? (fun p =>
      !excludeTerms.contains (p.map pyLowerChar) && decide (3 < p.length)) with
  | some p => finaliseLocation p
  | Option.none => []

/-- Embedding of `extract_location_from_data`. -/
def extract_location_from_data (v : PyVal) : List Char :=
  if pyNullish v then [] else extractFromParts (splitParts v)

/-! ### `create_google_maps_link` -/

/-- Length of the maximal `\w+` run at the head. -/
def wordLen (s : List Char) : Nat := (s.takeWhile isWordCharM).length

/-- Tail `\s+kraj\s*:\s*\w+$` of `_MAPS_SUFFIX_RE` at the head of `t`.
Returns the number of characters consumed by the match; a single trailing
newline tolerated by `$` is not part of the match. -/
def msTailLen (t : List Char) : Option Nat :=
  let w1 := wsLen t
  if w1 = 0 then Option.none else
  match dropCIL "kraj".toList (t.drop w1) with
  | Option.none => Option.none
  | some t1 =>
    let w2 := wsLen t1
    if startsB [':'] (t1.drop w2) then
      let t2 := t1.drop (w2 + 1)
      let w3 := wsLen t2
      let wl := wordLen (t2.drop w3)
      if wl = 0 then Option.none else
      let r := t2.drop (w3 + wl)
      if dollarOk r then some (w1 + 4 + w2 + 1 + w3 + wl) else Option.none
    else Option.none

/-- Lazy scan of the group `([^:]+?)` of `_MAPS_SUFFIX_RE`: shortest
non-empty colon-free prefix whose remainder matches the anchored tail.
Returns the consumed length (group and tail) and the captured group. -/
def msGroupScan : List Char → Option (Nat × List Char)
  | [] => Option.none
  | c :: rest =>
    if c = ':' then Option.none
    else
      match msTailLen rest with
      | some n => some (1 + n, [c])
      | Option.none => (msGroupScan rest).map (fun p => (1 + p.1, c :: p.2))

/-- Backtracking over the greedy `\s*` after the colon of `_MAPS_SUFFIX_RE`:
try the group start at the end of the whitespace run first, then at earlier
offsets, as the regex engine does. -/
def msACLoop (u : List Char) : Nat → Option (Nat × List Char)
  | 0 => msGroupScan u
  | w + 1 =>
    match msGroupScan (u.drop (w + 1)) with
    | some p => some (w + 1 + p.1, p.2)
    | Option.none => msACLoop u w

/-- Matcher for
`_MAPS_SUFFIX_RE = r'\s*:\s*([^:]+?)\s+kraj\s*:\s*\w+$'` (IGNORECASE),
substituted by `r', \1'`. -/
def msM (s : List Char) : Option (Nat × List Char) :=
  let w := wsLen s
  if startsB [':'] (s.drop w) then
    let u := s.drop (w + 1)
    match msACLoop u (wsLen u) with
    | some (n, g) => some (w + 1 + n, (", ").toList ++ g)
    | Option.none => Option.none
  else Option.none

/-- The validation gate of `create_google_maps_link`, computed on the
trimmed input: a street token occurs in the lower-cased text, or a comma is
present together with a digit or a known city keyword. -/
def mapsGate (trimmed : List Char) : Bool :=
  let lowered := trimmed.map pyLowerChar
  mapsStreetTokens.any (fun t => containsSubB lowered t) ||
    (trimmed.contains ',' &&
      (hasDigitB trimmed || mapsCityKeywords.any (fun t => containsSubB lowered t)))

/-- The single-pass metadata-prefix removal loop of `create_google_maps_link`:
each prefix of `_PREFIXES_TO_REMOVE` is tried once, in order, against the
lower-cased current text. -/
def stripMeta (trimmed : List Char) : List Char :=
  prefixesToRemove.foldl
    (fun acc p =>
      if startsB p (acc.map pyLowerChar) then pyStrip isPySpace (acc.drop p.length)
      else acc)
    trimmed

/-- The final cleanup pass of `create_google_maps_link` (after the gate and
the prefix removal). -/
def mapsCleanup (t1 : List Char) : List Char :=
  let t2 := pySub msM t1
  let t3 := pySub colonM t2
  let t4 := pySub spaceM t3
  let t5 := pySub dcommaM t4
  pyStrip isStripSC t5

/-- The location candidate actually encoded into the URL: empty when the
input is rejected (falsy input, blank after trimming, failed gate) and the
cleaned text otherwise (which may itself be empty). -/
def mapsCandidate (loc : List Char) : List Char :=
  if loc.isEmpty then [] else
  let trimmed := pyStrip isPySpace loc
  if trimmed.isEmpty then [] else
  if mapsGate trimmed then mapsCleanup (stripMeta trimmed) else []

/-- Upper-case hexadecimal digit (as produced by `urllib.parse.quote`). -/
def hexChar (n : Nat) : Char := (("0123456789ABCDEF").toList).getD n 'F'

/-- Percent-escape of one byte, `"%XX"` with upper-case hex digits. -/
def byteHex (b : Nat) : List Char := ['%', hexChar (b / 16 % 16), hexChar (b % 16)]

/-- UTF-8 encoding of a code point as a byte list. -/
def utf8BytesN (n : Nat) : List Nat :=
  if n < 0x80 then [n]
  else if n < 0x800 then [0xC0 + n / 0x40, 0x80 + n % 0x40]
  else if n < 0x10000 then
    [0xE0 + n / 0x1000, 0x80 + n / 0x40 % 0x40, 0x80 + n % 0x40]
  else
    [0xF0 + n / 0x40000, 0x80 + n / 0x1000 % 0x40, 0x80 + n / 0x40 % 0x40,
     0x80 + n % 0x40]

/-- Characters `urllib.parse.quote` leaves unescaped with its default
`safe='/'`: ASCII alphanumerics, `_.-~` and the slash. -/
def isQuoteSafe (c : Char) : Bool :=
  ('A' ≤ c && c ≤ 'Z') || ('a' ≤ c && c ≤ 'z') || ('0' ≤ c && c ≤ '9') ||
  c == '_' || c == '.' || c == '-' || c == '~' || c == '/'

/-- Embedding of `urllib.parse.quote` with the default `safe='/'`: safe
characters pass through, everything else is UTF-8 encoded and each byte
percent-escaped. -/
def pyQuote : List Char → List Char
  | [] => []
  | c :: rest =>
    (if isQuoteSafe c then [c] else (utf8BytesN c.toNat).foldr (fun b acc => byteHex b ++ acc) [])
      ++ pyQuote rest

/-- Value of a hexadecimal digit character. -/
def hexVal (c : Char) : Option Nat :=
  if '0' ≤ c ∧ c ≤ '9' then some (c.toNat - 48)
  else if 'A' ≤ c ∧ c ≤ 'F' then some (c.toNat - 55)
  else if 'a' ≤ c ∧ c ≤ 'f' then some (c.toNat - 87)
  else Option.none

/-- Model of `urllib.parse.unquote` restricted to well-formed input: decodes
`%XX` byte sequences (reassembling two- and three-byte UTF-8 sequences) and
passes other characters through; malformed sequences yield U+FFFD.  Fuel is
the input length (each step consumes at least one character). -/
def pyUnquoteF : Nat → List Char → List Char
  | 0, s => s
  | _ + 1, [] => []
  | fuel + 1, '%' :: h1 :: h2 :: rest =>
    (match hexVal h1, hexVal h2 with
     | some a, some b =>
       let byte := 16 * a + b
       if byte < 0x80 then Char.ofNat byte :: pyUnquoteF fuel rest
       else if 0xC0 ≤ byte ∧ byte < 0xE0 then
         match rest with
         | '%' :: g1 :: g2 :: rest2 =>
           (match hexVal g1, hexVal g2 with
            | some a2, some b2 =>
              Char.ofNat ((byte - 0xC0) * 0x40 + (16 * a2 + b2 - 0x80)) ::
                pyUnquoteF fuel rest2
            | _, _ => '�' :: pyUnquoteF fuel rest)
         | _ => '�' :: pyUnquoteF fuel rest
       else if 0xE0 ≤ byte ∧ byte < 0xF0 then
         match rest with
         | '%' :: g1 :: g2 :: '%' :: f1 :: f2 :: rest2 =>
           (match hexVal g1, hexVal g2, hexVal f1, hexVal f2 with
            | some a2, some b2, some a3, some b3 =>
              Char.ofNat ((byte - 0xE0) * 0x1000 + (16 * a2 + b2 - 0x80) * 0x40 +
                (16 * a3 + b3 - 0x80)) :: pyUnquoteF fuel rest2
            | _, _, _, _ => '�' :: pyUnquoteF fuel rest)
         | _ => '�' :: pyUnquoteF fuel rest
       else '�' :: pyUnquoteF fuel rest
     | _, _ => '%' :: pyUnquoteF fuel (h1 :: h2 :: rest))
  | fuel + 1, c :: rest => c :: pyUnquoteF fuel rest

/-- Run the decoder with fuel equal to the input length. -/
def pyUnquote (l : List Char) : List Char := pyUnquoteF l.length l

/-- The fixed URL head of every generated link. -/
def mapsUrlHead : List Char := ("https://www.google.com/maps/search/").toList

/-- Embedding of `create_google_maps_link` (`None` modelled as
`Option.none`). -/
def create_google_maps_link (loc : Option (List Char)) : List Char :=
  match loc with
  | Option.none => []
  | some l =>
    let c := mapsCandidate l
    if c.isEmpty then [] else mapsUrlHead ++ pyQuote c

/-! ### Small list lemmas used by the invariant proofs -/

theorem dropWhile_head_not {p : Char → Bool} :
    ∀ {l : List Char} {c : Char}, (l.dropWhile p).head? = some c → p c = false := by
  intro l
  induction l with
  | nil => intro c h; simp [List.dropWhile] at h
  | cons a t ih =>
    intro c h
    by_cases hp : p a
    · rw [List.dropWhile_cons_of_pos hp] at h
      exact ih h
    · rw [List.dropWhile_cons_of_neg hp] at h
      simp at h
      subst h
      exact Bool.not_eq_true _ ▸ (by simpa using hp)

theorem mem_dropWhile {p : Char → Bool} {l : List Char} {a : Char}
    (h : a ∈ l.dropWhile p) : a ∈ l :=
  (List.dropWhile_sublist _).subset h

theorem last_append (l1 l2 : List Char) (h : l2 ≠ []) :
    (l1 ++ l2).getLast? = l2.getLast? := by
  rw [← List.head?_reverse, ← List.head?_reverse, List.reverse_append]
  cases hr : l2.reverse with
  | nil => exact absurd (by simpa using congrArg List.reverse hr) h
  | cons a t => simp [hr]

theorem last_cons_of_ne_nil (c : Char) (rest : List Char) (h : rest ≠ []) :
    (c :: rest).getLast? = rest.getLast? := by
  have := last_append [c] rest h
  simpa using this

theorem last_drop {l : List Char} {n : Nat} (h : l.drop n ≠ []) :
    (l.drop n).getLast? = l.getLast? := by
  conv_rhs => rw [← List.take_append_drop n l]
  rw [last_append _ _ h]

theorem last_dropWhile {p : Char → Bool} {l : List Char}
    (h : l.dropWhile p ≠ []) : (l.dropWhile p).getLast? = l.getLast? := by
  induction l with
  | nil => simp [List.dropWhile] at h
  | cons a t ih =>
    by_cases hp : p a
    · rw [List.dropWhile_cons_of_pos hp] at h ⊢
      rw [ih h, last_cons_of_ne_nil]
      intro ht
      rw [ht] at h
      simp [List.dropWhile] at h
    · rw [List.dropWhile_cons_of_neg hp]

theorem dropWhile_eq_drop_wsLen (p : Char → Bool) (l : List Char) :
    l.dropWhile p = l.drop (l.takeWhile p).length := by
  induction l with
  | nil => rfl
  | cons a t ih =>
    by_cases hp : p a
    · rw [List.dropWhile_cons_of_pos hp, List.takeWhile_cons_of_pos hp]
      simpa using ih
    · rw [List.dropWhile_cons_of_neg hp, List.takeWhile_cons_of_neg hp]
      rfl

/-! ### Result-shape predicates for the finalised location -/

/-- Adjacency constraint ruling out two consecutive whitespace characters. -/
def wwR (a b : Char) : Prop := isPySpace a = false ∨ isPySpace b = false

/-- Executable check that no two adjacent characters are both whitespace. -/
def noWWb : List Char → Bool
  | [] => true
  | [_] => true
  | a :: b :: t => !(isPySpace a && isPySpace b) && noWWb (b :: t)

theorem noWWb_iff_chain :
    ∀ l : List Char, noWWb l = true ↔ List.Chain' wwR l := by
  intro l
  induction l with
  | nil => simp [noWWb]
  | cons a t ih =>
    cases t with
    | nil => simp [noWWb]
    | cons b t2 =>
      rw [List.chain'_cons, ← ih]
      show (!(isPySpace a && isPySpace b) && noWWb (b :: t2)) = true ↔ _
      cases ha : isPySpace a <;> cases hb : isPySpace b <;> simp [wwR, ha, hb]

/-- Executable check that neither end of the text is a space or a comma. -/
def endsOkB (l : List Char) : Bool :=
  (match l.head? with
   | some c => !isStripSC c
   | Option.none => true) &&
  (match l.getLast? with
   | some c => !isStripSC c
   | Option.none => true)

/-- Executable check that the text contains no colon (so it cannot contain
any `token:` metadata key). -/
def noColonB (l : List Char) : Bool := l.all (fun c => c ≠ ':')

/-- Executable check that none of the four metadata tokens occurs in key
position (followed by a colon, with or without a space before it). -/
def metaKeyFreeB (l : List Char) : Bool :=
  (["lokalizacja", "adres", "miasto", "kraj"].map String.toList).all
    (fun t => !containsSubB l (t ++ [':']) && !containsSubB l (t ++ (" :").toList))

/-- The invariant package carried through the cleaning pipeline. -/
def goodLoc (l : List Char) : Prop :=
  (∀ c ∈ l, c ≠ ':') ∧ List.Chain' wwR l ∧
  (∀ c, l.head? = some c → isStripSC c = false) ∧
  (∀ c, l.getLast? = some c → isStripSC c = false)

theorem goodLoc_nil : goodLoc [] := by
  refine ⟨by simp, by simp, ?_, ?_⟩ <;> intro c h <;> simp at h

theorem startsB_mem : ∀ (q m : List Char), startsB q m = true → ∀ x ∈ q, x ∈ m := by
  intro q
  induction q with
  | nil => intro m _ x hx; simp at hx
  | cons b s ihq =>
    intro m hq x hx
    cases m with
    | nil => simp [startsB] at hq
    | cons c r =>
      unfold startsB at hq
      by_cases hbc : b = c
      · rw [if_pos hbc] at hq
        rcases List.mem_cons.mp hx with h2 | h2
        · exact List.mem_cons.mpr (Or.inl (h2.trans hbc))
        · exact List.mem_cons.mpr (Or.inr (ihq r hq x h2))
      · rw [if_neg hbc] at hq
        simp at hq

theorem containsSubB_mem : ∀ {l p : List Char}, containsSubB l p = true →
    ∀ x ∈ p, x ∈ l := by
  intro l
  induction l with
  | nil =>
    intro p h x hx
    simp [containsSubB, List.isEmpty_iff] at h
    subst h
    simp at hx
  | cons a t ih =>
    intro p h x hx
    unfold containsSubB at h
    rw [Bool.or_eq_true] at h
    rcases h with h1 | h1
    · exact startsB_mem p (a :: t) h1 x hx
    · exact List.mem_cons.mpr (Or.inr (ih h1 x hx))

/-- A colon-free text is free of metadata keys. -/
theorem noColon_metaKeyFree {l : List Char} (h : ∀ c ∈ l, c ≠ ':') :
    metaKeyFreeB l = true := by
  unfold metaKeyFreeB
  rw [List.all_eq_true]
  intro t ht
  rw [Bool.and_eq_true]
  constructor <;>
    · rw [Bool.not_eq_true']
      cases hc : containsSubB l _
      · rfl
      · exact absurd rfl (h ':' (containsSubB_mem hc ':' (by simp)))

/-- The executable invariant follows from the `goodLoc` package. -/
theorem goodLoc_to_bools {l : List Char} (h : goodLoc l) :
    noColonB l = true ∧ metaKeyFreeB l = true ∧ noWWb l = true ∧
      endsOkB l = true := by
  obtain ⟨h1, h2, h3, h4⟩ := h
  refine ⟨?_, noColon_metaKeyFree h1, (noWWb_iff_chain l).mpr h2, ?_⟩
  · rw [noColonB, List.all_eq_true]
    intro c hc
    simpa using h1 c hc
  · unfold endsOkB
    rw [Bool.and_eq_true]
    constructor
    · cases hh : l.head? with
      | none => rfl
      | some c => simpa using h3 c hh
    · cases hh : l.getLast? with
      | none => rfl
      | some c => simpa using h4 c hh

/-! ### Invariant lemmas for the substitution engine -/

theorem chain_drop {R : Char → Char → Prop} :
    ∀ (n : Nat) (l : List Char), List.Chain' R l → List.Chain' R (l.drop n) := by
  intro n
  induction n with
  | zero => intro l h; simpa using h
  | succ k ih =>
    intro l h
    cases l with
    | nil => simp
    | cons c rest => exact ih rest h.tail

theorem getLast?_mem {l : List Char} {a : Char} (h : l.getLast? = some a) :
    a ∈ l := by
  rw [← List.head?_reverse] at h
  have hm : a ∈ l.reverse := by
    cases hr : l.reverse with
    | nil => rw [hr] at h; simp at h
    | cons b t =>
      rw [hr] at h
      simp at h
      exact List.mem_cons.mpr (Or.inl h.symm)
  exact List.mem_reverse.mp hm

theorem getLast?_reverse' (l : List Char) : l.reverse.getLast? = l.head? := by
  rw [← List.head?_reverse, List.reverse_reverse]

/-- Every character of a substitution result comes from the input or from a
replacement string. -/
theorem subAllG_mem (m : List Char → Option (Nat × List Char)) (Q : Char → Prop)
    (hm : ∀ s n r, m s = some (n, r) → ∀ x ∈ r, Q x ∨ x ∈ s) :
    ∀ fuel l, (∀ x ∈ l, Q x) → ∀ x ∈ subAllG m fuel l, Q x := by
  intro fuel
  induction fuel with
  | zero => intro l hl x hx; exact hl x hx
  | succ f ih =>
    intro l hl x hx
    cases l with
    | nil => simp [subAllG] at hx
    | cons c rest =>
      unfold subAllG at hx
      split at hx
      · next n r heq =>
        rcases List.mem_append.mp hx with h | h
        · rcases hm _ _ _ heq x h with h2 | h2
          · exact h2
          · exact hl x h2
        · exact ih _ (fun y hy => hl y ((List.drop_sublist _ _).subset hy)) x h
      · next heq =>
        rcases List.mem_cons.mp hx with h | h
        · exact hl x (h ▸ List.mem_cons_self c rest)
        · exact ih rest (fun y hy => hl y (List.mem_cons.mpr (Or.inr hy))) x h

/-- The head of a substitution result is the input head or the head of a
replacement produced by the matcher. -/
theorem subAllG_head (m : List Char → Option (Nat × List Char)) (P : Char → Prop)
    (hr : ∀ s n r, m s = some (n, r) → ∀ x, r.head? = some x → P x)
    (hrne : ∀ s n r, m s = some (n, r) → r ≠ []) :
    ∀ fuel l x, (subAllG m fuel l).head? = some x → l.head? = some x ∨ P x := by
  intro fuel l x hx
  cases fuel with
  | zero => exact Or.inl hx
  | succ f =>
    cases l with
    | nil => simp [subAllG] at hx
    | cons c rest =>
      unfold subAllG at hx
      split at hx
      · next n r heq =>
        cases r with
        | nil => exact absurd rfl (hrne _ _ _ heq)
        | cons y ys =>
          simp at hx
          exact Or.inr (hr _ _ _ heq x (by simp [← hx]))
      · next heq =>
        simp at hx
        exact Or.inl (by simp [hx])

/-! #### The colon substitution eliminates every colon -/

theorem colonM_facts {s : List Char} {n : Nat} {r : List Char}
    (h : colonM s = some (n, r)) : r = (", ").toList ∧ 1 ≤ n := by
  simp only [colonM] at h
  split at h
  · have h' := Option.some.inj h
    have hn : n = wsLen s + 1 + wsLen (List.drop (wsLen s + 1) s) :=
      (congrArg Prod.fst h').symm
    have hr : r = (", ").toList := (congrArg Prod.snd h').symm
    exact ⟨hr, by omega⟩
  · simp at h

theorem colonM_none_ne {c : Char} {rest : List Char}
    (h : colonM (c :: rest) = Option.none) : c ≠ ':' := by
  intro hc
  subst hc
  unfold colonM at h
  rw [wsLen, List.takeWhile_cons_of_neg (by decide)] at h
  simp [startsB] at h

theorem colonSub_no_colon :
    ∀ fuel l, l.length ≤ fuel → ∀ x ∈ subAllG colonM fuel l, x ≠ ':' := by
  intro fuel
  induction fuel with
  | zero =>
    intro l hl x hx
    have : l = [] := List.length_eq_zero.mp (Nat.le_zero.mp hl)
    subst this
    simp [subAllG] at hx
  | succ f ih =>
    intro l hl x hx
    cases l with
    | nil => simp [subAllG] at hx
    | cons c rest =>
      unfold subAllG at hx
      split at hx
      · next n r heq =>
        obtain ⟨hr, hn⟩ := colonM_facts heq
        rcases List.mem_append.mp hx with h | h
        · subst hr
          intro hcol
          subst hcol
          simp at h
        · refine ih _ ?_ x h
          rw [List.length_drop]
          simp only [List.length_cons] at hl ⊢
          omega
      · next heq =>
        rcases List.mem_cons.mp hx with h | h
        · exact h ▸ colonM_none_ne heq
        · exact ih rest (by simp at hl; omega) x h

/-! #### The whitespace collapse establishes the no-double-whitespace chain -/

theorem spaceM_none_head {c : Char} {rest : List Char}
    (h : spaceM (c :: rest) = Option.none) : isPySpace c = false := by
  cases hc : isPySpace c
  · rfl
  · exfalso
    simp only [spaceM] at h
    rw [if_pos hc] at h
    exact Option.noConfusion h

theorem spaceM_facts {s : List Char} {n : Nat} {r : List Char}
    (h : spaceM s = some (n, r)) :
    r = [' '] ∧ 1 ≤ n ∧ s.drop n = s.dropWhile isPySpace := by
  cases s with
  | nil => simp [spaceM] at h
  | cons c rest =>
    simp only [spaceM] at h
    split at h
    · next hc =>
      have h' := Option.some.inj h
      have hn : n = wsLen (c :: rest) := (congrArg Prod.fst h').symm
      have hr : r = [' '] := (congrArg Prod.snd h').symm
      subst hn
      refine ⟨hr, ?_, ?_⟩
      · unfold wsLen
        rw [List.takeWhile_cons_of_pos hc]
        simp
      · rw [dropWhile_eq_drop_wsLen isPySpace (c :: rest)]
        rfl
    · simp at h

theorem space_out_head :
    ∀ fuel l x, (∀ c, l.head? = some c → isPySpace c = false) →
      (subAllG spaceM fuel l).head? = some x → isPySpace x = false := by
  intro fuel l x hl hx
  cases fuel with
  | zero => exact hl x hx
  | succ f =>
    cases l with
    | nil => simp [subAllG] at hx
    | cons c rest =>
      have hc : isPySpace c = false := hl c rfl
      have hsm : spaceM (c :: rest) = Option.none := by simp [spaceM, hc]
      unfold subAllG at hx
      rw [hsm] at hx
      have hcx : c = x := by simpa using hx
      exact hcx ▸ hc

theorem spaceSub_chain :
    ∀ fuel l, l.length ≤ fuel → List.Chain' wwR (subAllG spaceM fuel l) := by
  intro fuel
  induction fuel with
  | zero =>
    intro l hl
    have : l = [] := List.length_eq_zero.mp (Nat.le_zero.mp hl)
    subst this
    simp [subAllG]
  | succ f ih =>
    intro l hl
    cases l with
    | nil => simp [subAllG]
    | cons c rest =>
      unfold subAllG
      cases hsm : spaceM (c :: rest) with
      | some p =>
        obtain ⟨n, r⟩ := p
        obtain ⟨hr, hn, hd⟩ := spaceM_facts hsm
        subst hr
        show List.Chain' wwR ([' '] ++ subAllG spaceM f (List.drop n (c :: rest)))
        rw [List.singleton_append, List.chain'_cons']
        constructor
        · intro y hy
          right
          refine space_out_head f _ y ?_ hy
          intro d hd2
          rw [hd] at hd2
          exact dropWhile_head_not hd2
        · refine ih _ ?_
          rw [List.length_drop]
          simp only [List.length_cons] at hl ⊢
          omega
      | none =>
        show List.Chain' wwR (c :: subAllG spaceM f rest)
        rw [List.chain'_cons']
        constructor
        · intro y _
          exact Or.inl (spaceM_none_head hsm)
        · exact ih rest (by simp at hl; omega)

/-! #### Generic chain preservation (used for the comma-pair collapse) -/

theorem subAllG_chain_pres (m : List Char → Option (Nat × List Char))
    (hm : ∀ s n r, m s = some (n, r) →
      r ≠ [] ∧ List.Chain' wwR r ∧ ∀ x ∈ r, isPySpace x = false) :
    ∀ fuel l, List.Chain' wwR l → List.Chain' wwR (subAllG m fuel l) := by
  intro fuel
  induction fuel with
  | zero => intro l h; exact h
  | succ f ih =>
    intro l hcl
    cases l with
    | nil => simp [subAllG]
    | cons c rest =>
      unfold subAllG
      split
      · next n r heq =>
        obtain ⟨hne, hch, hws⟩ := hm _ _ _ heq
        rw [List.chain'_append]
        refine ⟨hch, ih _ (chain_drop _ _ hcl), ?_⟩
        intro x hx y _
        exact Or.inl (hws x (getLast?_mem hx))
      · next heq =>
        rw [List.chain'_cons']
        constructor
        · intro y hy
          rcases subAllG_head m (fun d => isPySpace d = false)
              (fun s n r h2 x hx => (hm _ _ _ h2).2.2 x
                (by cases r with
                    | nil => simp at hx
                    | cons a t => simp at hx; simp [hx]))
              (fun s n r h2 => (hm _ _ _ h2).1) f rest y hy with h | h
          · exact (List.chain'_cons'.mp hcl).1 y h
          · exact Or.inr h
        · exact ih rest hcl.tail

theorem dcommaM_facts {s : List Char} {n : Nat} {r : List Char}
    (h : dcommaM s = some (n, r)) :
    r = [','] ∧ List.Chain' wwR r ∧ ∀ x ∈ r, isPySpace x = false := by
  unfold dcommaM at h
  split at h
  · split at h
    · have h' := Option.some.inj h
      have hr : r = [','] := (congrArg Prod.snd h').symm
      subst hr
      refine ⟨rfl, by simp, ?_⟩
      intro x hx
      simp at hx
      subst hx
      decide
    · simp at h
  · simp at h

/-! #### Invariants of the final `strip(' ,')` -/

theorem pyStrip_mem {p : Char → Bool} {l : List Char} {x : Char}
    (h : x ∈ pyStrip p l) : x ∈ l := by
  unfold pyStrip at h
  exact mem_dropWhile (List.mem_reverse.mp (mem_dropWhile (List.mem_reverse.mp h)))

theorem chain_reverse_wwR {l : List Char} (h : List.Chain' wwR l) :
    List.Chain' wwR l.reverse := by
  rw [List.chain'_reverse]
  exact h.imp (fun _ _ hab => hab.symm)

theorem pyStrip_chain {p : Char → Bool} {l : List Char} (h : List.Chain' wwR l) :
    List.Chain' wwR (pyStrip p l) := by
  unfold pyStrip
  apply chain_reverse_wwR
  rw [dropWhile_eq_drop_wsLen p]
  apply chain_drop
  apply chain_reverse_wwR
  rw [dropWhile_eq_drop_wsLen p]
  exact chain_drop _ _ h

theorem pyStrip_last {p : Char → Bool} {l : List Char} {c : Char}
    (h : (pyStrip p l).getLast? = some c) : p c = false := by
  unfold pyStrip at h
  rw [getLast?_reverse'] at h
  exact dropWhile_head_not h

theorem pyStrip_head {p : Char → Bool} {l : List Char} {c : Char}
    (h : (pyStrip p l).head? = some c) : p c = false := by
  unfold pyStrip at h
  rw [List.head?_reverse] at h
  by_cases hne : (l.dropWhile p).reverse.dropWhile p = []
  · rw [hne] at h
    simp at h
  · rw [last_dropWhile hne, getLast?_reverse'] at h
    exact dropWhile_head_not h

/-! #### The cleaned text satisfies the whole invariant package -/

theorem clean_goodLoc (l : List Char) : goodLoc (clean_location_text l) := by
  have main : ∀ m : List Char,
      goodLoc (pyStrip isStripSC (pySub dcommaM (pySub spaceM (pySub colonM m)))) := by
    intro m
    have hc1 : ∀ x ∈ pySub colonM m, x ≠ ':' := colonSub_no_colon m.length m le_rfl
    have hc2 : ∀ x ∈ pySub spaceM (pySub colonM m), x ≠ ':' := by
      refine subAllG_mem spaceM (fun x => x ≠ ':') ?_ _ _ hc1
      intro s n r h x hx
      obtain ⟨hr, -, -⟩ := spaceM_facts h
      subst hr
      simp at hx
      subst hx
      exact Or.inl (by decide)
    have hc3 : ∀ x ∈ pySub dcommaM (pySub spaceM (pySub colonM m)), x ≠ ':' := by
      refine subAllG_mem dcommaM (fun x => x ≠ ':') ?_ _ _ hc2
      intro s n r h x hx
      obtain ⟨hr, -, -⟩ := dcommaM_facts h
      subst hr
      simp at hx
      subst hx
      exact Or.inl (by decide)
    have hch1 : List.Chain' wwR (pySub spaceM (pySub colonM m)) :=
      spaceSub_chain _ _ le_rfl
    have hch2 : List.Chain' wwR (pySub dcommaM (pySub spaceM (pySub colonM m))) := by
      refine subAllG_chain_pres dcommaM ?_ _ _ hch1
      intro s n r h
      obtain ⟨hr, h2, h3⟩ := dcommaM_facts h
      exact ⟨by simp [hr], h2, h3⟩
    refine ⟨?_, pyStrip_chain hch2, ?_, ?_⟩
    · intro c hc
      exact hc3 c (pyStrip_mem hc)
    · intro c hc
      exact pyStrip_head hc
    · intro c hc
      exact pyStrip_last hc
  unfold clean_location_text
  by_cases hl : l.isEmpty
  · rw [if_pos hl]
    exact goodLoc_nil
  · rw [if_neg hl]
    exact main _

/-! #### Invariants of the whole-word replacement engine -/

theorem ciLast_lower : ∀ (k s : List Char) (lc : Char) (d : Char), k ≠ [] →
    ciLast k s = some lc → pyLowerChar lc = k.getLastD d := by
  intro k
  induction k with
  | nil => intro s lc d h; exact absurd rfl h
  | cons p ps ih =>
    intro s lc d _ h
    cases ps with
    | nil =>
      cases s with
      | nil => simp [ciLast] at h
      | cons c cs =>
        unfold ciLast at h
        split at h
        · next hp =>
          have : c = lc := Option.some.inj h
          subst this
          simpa [List.getLastD] using hp
        · simp at h
    | cons q qs =>
      cases s with
      | nil => simp [ciLast] at h
      | cons c cs =>
        unfold ciLast at h
        split at h
        · rw [List.getLastD_cons]
          exact ih cs lc p (by simp) h
        · simp at h

theorem wbMatch_some {pw : Bool} {k s : List Char} {lc : Char}
    (h : wbMatch pw k s = some lc) :
    ciLast k s = some lc ∧ isWordCharM lc ≠ nextWordB k s := by
  unfold wbMatch at h
  split at h
  · simp at h
  · next lc' heq =>
    split at h
    · next hcond =>
      have hlc : lc' = lc := Option.some.inj h
      subst hlc
      rw [Bool.and_eq_true] at hcond
      exact ⟨heq, bne_iff_ne.mp hcond.2⟩
    · simp at h

theorem subWBF_mem (k v : List Char) :
    ∀ fuel pw l, ∀ x ∈ subWBF k v fuel pw l, x ∈ l ∨ x ∈ v := by
  intro fuel
  induction fuel with
  | zero => intro pw l x hx; exact Or.inl hx
  | succ f ih =>
    intro pw l x hx
    cases l with
    | nil => simp [subWBF] at hx
    | cons c rest =>
      unfold subWBF at hx
      cases hm : wbMatch pw k (c :: rest) with
      | some lc =>
        rw [hm] at hx
        have hx' : x ∈ v ++ subWBF k v f (isWordCharM lc) (List.drop k.length (c :: rest)) := hx
        rcases List.mem_append.mp hx' with h | h
        · exact Or.inr h
        · rcases ih _ _ x h with h2 | h2
          · exact Or.inl ((List.drop_sublist _ _).subset h2)
          · exact Or.inr h2
      | none =>
        rw [hm] at hx
        have hx' : x ∈ c :: subWBF k v f (isWordCharM c) rest := hx
        rcases List.mem_cons.mp hx' with h | h
        · exact Or.inl (h ▸ List.mem_cons_self c rest)
        · rcases ih _ _ x h with h2 | h2
          · exact Or.inl (List.mem_cons.mpr (Or.inr h2))
          · exact Or.inr h2

theorem subWBF_head (k v : List Char) (hv : v ≠ []) :
    ∀ fuel pw l x, (subWBF k v fuel pw l).head? = some x →
      l.head? = some x ∨ v.head? = some x := by
  intro fuel pw l x hx
  cases fuel with
  | zero => exact Or.inl hx
  | succ f =>
    cases l with
    | nil => simp [subWBF] at hx
    | cons c rest =>
      unfold subWBF at hx
      cases hm : wbMatch pw k (c :: rest) with
      | some lc =>
        rw [hm] at hx
        have hx' : (v ++ subWBF k v f (isWordCharM lc)
            (List.drop k.length (c :: rest))).head? = some x := hx
        cases v with
        | nil => exact absurd rfl hv
        | cons a t =>
          have hax : a = x := by simpa using hx'
          exact Or.inr (by simp [hax])
      | none =>
        rw [hm] at hx
        have hx' : (c :: subWBF k v f (isWordCharM c) rest).head? = some x := hx
        have hcx : c = x := by simpa using hx'
        exact Or.inl (by simp [hcx])

theorem subWBF_ne_nil (k v : List Char) (hv : v ≠ []) :
    ∀ fuel pw l, l ≠ [] → subWBF k v fuel pw l ≠ [] := by
  intro fuel pw l hl
  cases fuel with
  | zero => exact hl
  | succ f =>
    cases l with
    | nil => exact absurd rfl hl
    | cons c rest =>
      unfold subWBF
      cases hm : wbMatch pw k (c :: rest) with
      | some lc =>
        show v ++ _ ≠ []
        simp [hv]
      | none =>
        show c :: _ ≠ []
        simp

theorem subWBF_nil (k v : List Char) : ∀ fuel pw, subWBF k v fuel pw [] = [] := by
  intro fuel pw
  cases fuel <;> rfl

/-- If the key ends in a non-word character, a match forces the next original
character to be a word character (this is the trailing `\b`). -/
theorem wbMatch_next_word {pw : Bool} {k s : List Char} {lc : Char}
    (hk : k ≠ []) (hkw : isWordCharM (k.getLastD 'x') = false)
    (h : wbMatch pw k s = some lc) : nextWordB k s = true := by
  obtain ⟨hci, hne⟩ := wbMatch_some h
  have hlcw : isWordCharM lc = false := by
    cases hw : isWordCharM lc
    · rfl
    · exfalso
      have h2 := isWord_pyLower lc hw
      rw [ciLast_lower k s lc 'x' hk hci, hkw] at h2
      exact Bool.noConfusion h2
  cases hw : nextWordB k s
  · exact absurd (hlcw.trans hw.symm) hne
  · rfl

theorem subWBF_last (k v : List Char) (hk : k ≠ []) (hv : v ≠ [])
    (hvl : (∀ c, v.getLast? = some c → isStripSC c = false) ∨
           isWordCharM (k.getLastD 'x') = false) :
    ∀ fuel pw l, (∀ c, l.getLast? = some c → isStripSC c = false) →
      ∀ c, (subWBF k v fuel pw l).getLast? = some c → isStripSC c = false := by
  intro fuel
  induction fuel with
  | zero => intro pw l hl c hc; exact hl c hc
  | succ f ih =>
    intro pw l hl c hc
    cases l with
    | nil => simp [subWBF] at hc
    | cons a rest =>
      unfold subWBF at hc
      cases hm : wbMatch pw k (a :: rest) with
      | some lc =>
        rw [hm] at hc
        have hc' : (v ++ subWBF k v f (isWordCharM lc)
            (List.drop k.length (a :: rest))).getLast? = some c := hc
        by_cases hdrop : List.drop k.length (a :: rest) = []
        · rw [hdrop, subWBF_nil, List.append_nil] at hc'
          rcases hvl with hgood | hkw
          · exact hgood c hc'
          · exfalso
            have hnw := wbMatch_next_word hk hkw hm
            unfold nextWordB headWordB at hnw
            rw [hdrop] at hnw
            exact Bool.noConfusion hnw
        · have hout : subWBF k v f (isWordCharM lc)
              (List.drop k.length (a :: rest)) ≠ [] :=
            subWBF_ne_nil k v hv f _ _ hdrop
          rw [last_append _ _ hout] at hc'
          refine ih _ _ ?_ c hc'
          intro d hd
          rw [last_drop hdrop] at hd
          exact hl d hd
      | none =>
        rw [hm] at hc
        have hc' : (a :: subWBF k v f (isWordCharM a) rest).getLast? = some c := hc
        by_cases hrest : rest = []
        · subst hrest
          rw [subWBF_nil] at hc'
          simp at hc'
          exact hl c (by simp [hc'])
        · have hout : subWBF k v f (isWordCharM a) rest ≠ [] :=
            subWBF_ne_nil k v hv f _ _ hrest
          rw [last_cons_of_ne_nil _ _ hout] at hc'
          refine ih _ _ ?_ c hc'
          intro d hd
          refine hl d ?_
          rw [last_cons_of_ne_nil _ _ hrest]
          exact hd

theorem subWBF_chain (k v : List Char) (hk : k ≠ []) (hv : v ≠ [])
    (hvch : List.Chain' wwR v)
    (hvh : ∀ c, v.head? = some c → isPySpace c = false)
    (hvl : (∀ c, v.getLast? = some c → isPySpace c = false) ∨
           isWordCharM (k.getLastD 'x') = false) :
    ∀ fuel pw l, List.Chain' wwR l → List.Chain' wwR (subWBF k v fuel pw l) := by
  intro fuel
  induction fuel with
  | zero => intro pw l h; exact h
  | succ f ih =>
    intro pw l hcl
    cases l with
    | nil => simp [subWBF]
    | cons a rest =>
      unfold subWBF
      cases hm : wbMatch pw k (a :: rest) with
      | some lc =>
        show List.Chain' wwR (v ++ subWBF k v f (isWordCharM lc)
          (List.drop k.length (a :: rest)))
        rw [List.chain'_append]
        refine ⟨hvch, ih _ _ (chain_drop _ _ hcl), ?_⟩
        intro x hx y hy
        rcases subWBF_head k v hv f _ _ y hy with hyd | hyv
        · rcases hvl with hgood | hkw
          · exact Or.inl (hgood x hx)
          · right
            have hnw := wbMatch_next_word hk hkw hm
            unfold nextWordB headWordB at hnw
            rw [hyd] at hnw
            exact isWord_not_space y hnw
        · exact Or.inr (hvh y hyv)
      | none =>
        show List.Chain' wwR (a :: subWBF k v f (isWordCharM a) rest)
        rw [List.chain'_cons']
        refine ⟨?_, ih _ _ hcl.tail⟩
        intro y hy
        rcases subWBF_head k v hv f _ _ y hy with hyr | hyv
        · exact (List.chain'_cons'.mp hcl).1 y hyr
        · exact Or.inr (hvh y hyv)

/-! #### The lexicon entries satisfy the side conditions -/

/-- Decidable side conditions on a lexicon entry under which one whole-word
replacement preserves the invariant package. -/
def wbPairOK (kv : List Char × List Char) : Bool :=
  !kv.1.isEmpty && !kv.2.isEmpty &&
  kv.2.all (fun c => c ≠ ':') &&
  noWWb kv.2 &&
  (match kv.2.head? with
   | some c => !isPySpace c && !isStripSC c
   | Option.none => true) &&
  ((match kv.2.getLast? with
    | some c => !isPySpace c && !isStripSC c
    | Option.none => true) || !isWordCharM (kv.1.getLastD 'x'))

theorem wbPairOK_spec {kv : List Char × List Char} (h : wbPairOK kv = true) :
    kv.1 ≠ [] ∧ kv.2 ≠ [] ∧ (∀ x ∈ kv.2, x ≠ ':') ∧ List.Chain' wwR kv.2 ∧
    (∀ c, kv.2.head? = some c → isPySpace c = false ∧ isStripSC c = false) ∧
    ((∀ c, kv.2.getLast? = some c → isPySpace c = false ∧ isStripSC c = false) ∨
     isWordCharM (kv.1.getLastD 'x') = false) := by
  unfold wbPairOK at h
  rw [Bool.and_eq_true, Bool.and_eq_true, Bool.and_eq_true, Bool.and_eq_true,
    Bool.and_eq_true] at h
  obtain ⟨⟨⟨⟨⟨hk, hv⟩, hvc⟩, hw⟩, hh⟩, hl⟩ := h
  refine ⟨fun he => by simp [he] at hk, fun he => by simp [he] at hv, ?_,
    (noWWb_iff_chain _).mp hw, ?_, ?_⟩
  · intro x hx
    simpa using List.all_eq_true.mp hvc x hx
  · intro c hcc
    simp only [hcc] at hh
    rw [Bool.and_eq_true] at hh
    exact ⟨by simpa using hh.1, by simpa using hh.2⟩
  · rw [Bool.or_eq_true] at hl
    rcases hl with hg | hk2
    · left
      intro c hcc
      simp only [hcc] at hg
      rw [Bool.and_eq_true] at hg
      exact ⟨by simpa using hg.1, by simpa using hg.2⟩
    · right
      simpa using hk2

/-- One whole-word replacement with a well-formed lexicon entry preserves the
invariant package. -/
theorem subWB_goodLoc (k v : List Char) (hk : k ≠ []) (hv : v ≠ [])
    (hvc : ∀ x ∈ v, x ≠ ':')
    (hvch : List.Chain' wwR v)
    (hvh : ∀ c, v.head? = some c → isPySpace c = false ∧ isStripSC c = false)
    (hvl : (∀ c, v.getLast? = some c → isPySpace c = false ∧ isStripSC c = false) ∨
           isWordCharM (k.getLastD 'x') = false)
    (l : List Char) (h : goodLoc l) : goodLoc (reSubWB k v l) := by
  obtain ⟨h1, h2, h3, h4⟩ := h
  refine ⟨?_, ?_, ?_, ?_⟩
  · intro x hx
    rcases subWBF_mem k v l.length false l x hx with hm | hm
    · exact h1 x hm
    · exact hvc x hm
  · exact subWBF_chain k v hk hv hvch (fun c hc => (hvh c hc).1)
      (hvl.imp (fun hg c hc => (hg c hc).1) id) _ _ _ h2
  · intro c hc
    rcases subWBF_head k v hv _ _ _ c hc with hm | hm
    · exact h3 c hm
    · exact (hvh c hm).2
  · exact subWBF_last k v hk hv
      (hvl.imp (fun hg c hc => (hg c hc).2) id) _ _ _ h4

/-- The diacritic normalisation preserves the invariant package. -/
theorem normalize_goodLoc (l : List Char) (h : goodLoc l) :
    goodLoc (normalize_polish_names l) := by
  have main : ∀ (ps : List (List Char × List Char)),
      (∀ kv ∈ ps, wbPairOK kv = true) → ∀ m, goodLoc m →
      goodLoc (ps.foldl (fun acc kv => reSubWB kv.1 kv.2 acc) m) := by
    intro ps
    induction ps with
    | nil => intro _ m hm; exact hm
    | cons kv t ih =>
      intro hall m hm
      rw [List.foldl_cons]
      refine ih (fun x hx => hall x (List.mem_cons.mpr (Or.inr hx))) _ ?_
      obtain ⟨hk, hv, hvc, hvch, hvh, hvl⟩ :=
        wbPairOK_spec (hall kv (List.mem_cons_self _ _))
      exact subWB_goodLoc kv.1 kv.2 hk hv hvc hvch hvh hvl m hm
  unfold normalize_polish_names
  by_cases hl : l.isEmpty
  · rw [if_pos hl]
    exact (List.isEmpty_iff.mp hl) ▸ h
  · rw [if_neg hl]
    exact main polishRepl (by decide) l h

/-- The finalisation pipeline always produces text satisfying the invariant
package. -/
theorem finalise_goodLoc (l : List Char) : goodLoc (finaliseLocation l) :=
  normalize_goodLoc _ (clean_goodLoc l)

/-- Every extraction result is empty or a finalised candidate. -/
theorem extract_shape (v : PyVal) :
    extract_location_from_data v = [] ∨
    ∃ x, extract_location_from_data v = finaliseLocation x := by
  unfold extract_location_from_data
  by_cases h0 : pyNullish v
  · rw [if_pos h0]
    exact Or.inl rfl
  · rw [if_neg h0]
    unfold extractFromParts
    split
    · exact Or.inr ⟨_, rfl⟩
    · split
      · exact Or.inr ⟨_, rfl⟩
      · split
        · exact Or.inr ⟨_, rfl⟩
        · split
          · exact Or.inr ⟨_, rfl⟩
          · exact Or.inl rfl

/-- The invariant package holds for every extraction result. -/
theorem extract_goodLoc (v : PyVal) : goodLoc (extract_location_from_data v) := by
  rcases extract_shape v with h | ⟨x, h⟩
  · rw [h]
    exact goodLoc_nil
  · rw [h]
    exact finalise_goodLoc x

/-! ### Shape lemmas for `create_google_maps_link` -/

/-- Characters that can appear in the output of `pyQuote`: safe characters,
the percent sign and upper-case hex digits. -/
def quoteOutB (c : Char) : Bool := isQuoteSafe c || c == '%' || ('A' ≤ c && c ≤ 'F')

theorem quoteOut_hexChar (n : Nat) : quoteOutB (hexChar n) = true := by
  unfold hexChar
  have hall : ∀ x ∈ ("0123456789ABCDEF").toList, quoteOutB x = true := by decide
  by_cases h : n < (("0123456789ABCDEF").toList).length
  · refine hall _ ?_
    rw [List.getD_eq_getElem?_getD, List.getElem?_eq_getElem h]
    simp only [Option.getD_some]
    exact List.getElem_mem h
  · rw [List.getD_eq_default _ _ (Nat.le_of_not_lt h)]
    decide

theorem quoteOut_byteHex (b : Nat) : ∀ x ∈ byteHex b, quoteOutB x = true := by
  intro x hx
  unfold byteHex at hx
  simp at hx
  rcases hx with h | h | h <;> rw [h]
  · decide
  · exact quoteOut_hexChar _
  · exact quoteOut_hexChar _

theorem pyQuote_all (l : List Char) : ∀ x ∈ pyQuote l, quoteOutB x = true := by
  induction l with
  | nil => intro x hx; simp [pyQuote] at hx
  | cons c rest ih =>
    intro x hx
    unfold pyQuote at hx
    rcases List.mem_append.mp hx with h | h
    · by_cases hs : isQuoteSafe c
      · rw [if_pos hs] at h
        simp at h
        rw [h]
        simp [quoteOutB, hs]
      · rw [if_neg hs] at h
        have main : ∀ bs : List Nat,
            x ∈ bs.foldr (fun b acc => byteHex b ++ acc) [] → quoteOutB x = true := by
          intro bs
          induction bs with
          | nil => intro hh; simp at hh
          | cons b bt ihb =>
            intro hh
            rcases List.mem_append.mp hh with h2 | h2
            · exact quoteOut_byteHex b x h2
            · exact ihb h2
        exact main _ h
    · exact ih x h

theorem build_ne_empty_gate (l : List Char)
    (h : create_google_maps_link (some l) ≠ []) :
    mapsGate (pyStrip isPySpace l) = true := by
  by_cases h0 : l.isEmpty
  · exact absurd (by simp [create_google_maps_link, mapsCandidate, h0]) h
  · by_cases h1 : (pyStrip isPySpace l).isEmpty
    · exact absurd (by simp [create_google_maps_link, mapsCandidate, h0, h1]) h
    · by_cases h2 : mapsGate (pyStrip isPySpace l)
      · exact h2
      · exact absurd (by simp [create_google_maps_link, mapsCandidate, h0, h1, h2]) h

theorem build_shape (l : List Char) :
    create_google_maps_link (some l) = [] ∨
    (mapsCandidate l ≠ [] ∧
     create_google_maps_link (some l) = mapsUrlHead ++ pyQuote (mapsCandidate l)) := by
  by_cases hc : (mapsCandidate l).isEmpty
  · exact Or.inl (by simp [create_google_maps_link, hc])
  · refine Or.inr ⟨by simpa [List.isEmpty_iff] using hc, ?_⟩
    simp [create_google_maps_link, hc]

/-! ## Claim theorems -/

/-- C1: totality of the public interface.  In this embedding both
`extract_location_from_data` and `create_google_maps_link` are total Lean
functions (they always return a `List Char`, never raise), so the theorem
records the documented sentinel behaviour on the adversarial domain: `None`,
NaN and the empty string yield the empty string; whitespace-only input yields
the empty string; strings with null bytes and with only high-codepoint
Unicode are processed and return strings. -/
theorem claim_C1_totality :
    extract_location_from_data PyVal.none = [] ∧
    extract_location_from_data (PyVal.num true "nan") = [] ∧
    extract_location_from_data (PyVal.str "") = [] ∧
    extract_location_from_data (PyVal.str "   ") = [] ∧
    extract_location_from_data (PyVal.str "\x00") = [] ∧
    extract_location_from_data (PyVal.str "\x00\x00\x00\x00\x00") =
      ("\x00\x00\x00\x00\x00").toList ∧
    extract_location_from_data (PyVal.str "😀😀😀😀") = ("😀😀😀😀").toList ∧
    create_google_maps_link Option.none = [] ∧
    create_google_maps_link (some []) = [] ∧
    create_google_maps_link (some ("   ").toList) = [] := by
  decide

/-- C2: maps-link validation gate.  A non-empty link is produced only when
the trimmed input passes the gate (street token, or comma with digit or city
keyword); `"Random text without address"` yields the empty string, and
`"ul. Testowa 12, Warszawa"` yields a link with the documented head whose
encoded part URL-decodes to text containing `"Testowa 12, Warszawa"`. -/
theorem claim_C2_gate :
    (∀ l : List Char, create_google_maps_link (some l) ≠ [] →
      mapsGate (pyStrip isPySpace l) = true) ∧
    create_google_maps_link (some ("Random text without address").toList) = [] ∧
    create_google_maps_link (some ("ul. Testowa 12, Warszawa").toList) =
      mapsUrlHead ++ ("ul.%20Testowa%2012%2C%20Warszawa").toList ∧
    pyUnquote (("ul.%20Testowa%2012%2C%20Warszawa").toList) =
      ("ul. Testowa 12, Warszawa").toList ∧
    containsSubB (("ul. Testowa 12, Warszawa").toList)
      (("Testowa 12, Warszawa").toList) = true := by
  refine ⟨build_ne_empty_gate, ?_, ?_, ?_, ?_⟩ <;> decide

/-- C2 witness: the gate theorem applied at `"ul. Testowa 12, Warszawa"`. -/
theorem claim_C2_gate_witness :
    mapsGate (pyStrip isPySpace (("ul. Testowa 12, Warszawa").toList)) = true :=
  claim_C2_gate.1 (("ul. Testowa 12, Warszawa").toList) (by decide)

/-- C3 counterexample: the original claim is false — the double-comma
collapse is a single left-to-right pass, so `extract_location_from_data`
applied to `"a,,,b"` returns `"a,,b"`, which still contains duplicate
commas. -/
theorem claim_C3_duplicate_comma_cex :
    extract_location_from_data (PyVal.str "a,,,b") = ("a,,b").toList ∧
    containsSubB (extract_location_from_data (PyVal.str "a,,,b"))
      ((",,").toList) = true := by
  decide

/-- C3 (amended): for every input, the extraction result contains no colon
(hence none of the metadata tokens "lokalizacja", "adres", "miasto", "kraj"
in key position), has no two adjacent whitespace characters, and is trimmed
of leading and trailing spaces and commas.  The duplicate-comma clause of
the original claim is dropped: it fails (see the counterexample). -/
theorem claim_C3_finalized_invariant : ∀ v : PyVal,
    noColonB (extract_location_from_data v) = true ∧
    metaKeyFreeB (extract_location_from_data v) = true ∧
    noWWb (extract_location_from_data v) = true ∧
    endsOkB (extract_location_from_data v) = true := by
  intro v
  have h := goodLoc_to_bools (extract_goodLoc v)
  exact ⟨h.1, h.2.1, h.2.2.1, h.2.2.2⟩

/-- C4 counterexample: the lexicon pair `("sw.", "św.")` does not
round-trip standalone — the pattern `\bsw\.\b` requires a word character
after the dot, so `normalize_polish_names "sw."` returns `"sw."`. -/
theorem claim_C4_diacritics_cex :
    (("sw.").toList, ("św.").toList) ∈ polishRepl ∧
    normalize_polish_names (("sw.").toList) ≠ ("św.").toList := by
  decide

/-- C4 (amended): for every lexicon pair whose ASCII-folded key ends in a
word character (all pairs except `"sw."` and `"sw "`), the standalone key is
mapped to the accented form; the two keys ending in a non-word character are
returned unchanged standalone, because their trailing `\b` needs a following
word character. -/
theorem claim_C4_diacritics :
    (∀ kv ∈ polishRepl, isWordCharM (kv.1.getLastD 'x') = true →
      normalize_polish_names kv.1 = kv.2) ∧
    normalize_polish_names (("sw.").toList) = ("sw.").toList ∧
    normalize_polish_names (("sw ").toList) = ("sw ").toList := by
  refine ⟨?_, by decide, by decide⟩
  decide

/-- C4 witness: the amended theorem applied to the pair `("lodz", "łódź")`. -/
theorem claim_C4_diacritics_witness :
    normalize_polish_names (("lodz").toList) = ("łódź").toList :=
  claim_C4_diacritics.1 ((("lodz").toList, ("łódź").toList)) (by decide) (by decide)

/-- C5 counterexample: the original claim is false — `urllib.parse.quote` is
called with its default `safe='/'`, so the reserved character `/` is left
unencoded: `create_google_maps_link "ul. 1/2"` keeps the raw slash inside
the encoded segment. -/
theorem claim_C5_slash_cex :
    create_google_maps_link (some (("ul. 1/2").toList)) =
      mapsUrlHead ++ ("ul.%201/2").toList ∧
    '/' ∈ ("ul.%201/2").toList := by
  decide

/-- C5 (amended): every result of `create_google_maps_link` is the empty
string or `https://www.google.com/maps/search/<encoded>` where `<encoded>`
is the percent-encoding of the non-empty cleaned location candidate, with
spaces and reserved characters other than `/` percent-encoded (Unicode as
UTF-8 percent sequences, upper-case hex), `/` being left unescaped. -/
theorem claim_C5_link_shape : ∀ l : List Char,
    create_google_maps_link (some l) = [] ∨
    (mapsCandidate l ≠ [] ∧
     create_google_maps_link (some l) = mapsUrlHead ++ pyQuote (mapsCandidate l) ∧
     ∀ x ∈ pyQuote (mapsCandidate l), quoteOutB x = true) := by
  intro l
  rcases build_shape l with h | ⟨h1, h2⟩
  · exact Or.inl h
  · exact Or.inr ⟨h1, h2, pyQuote_all _⟩

/-- C6 counterexample: finalize is not idempotent on all strings — on
`"a,,,b"` one cleaning pass leaves `"a,,b"` and a second pass still changes
it to `"a,b"`. -/
theorem claim_C6_idempotence_cex :
    finaliseLocation (finaliseLocation (("a,,,b").toList)) ≠
      finaliseLocation (("a,,,b").toList) := by
  decide

/-- C6 (amended): finalize is idempotent on representative structured
strings (the spec's structured example, the dash example and a plain
address), though not on all strings (see the counterexample). -/
theorem claim_C6_idempotence_representative :
    finaliseLocation (finaliseLocation
      (("lokalizacja: adres: ul. Testowa 12 miasto: Poznan kraj: Polska").toList)) =
      finaliseLocation
        (("lokalizacja: adres: ul. Testowa 12 miasto: Poznan kraj: Polska").toList) ∧
    finaliseLocation (finaliseLocation
      (("TRANSACTION DESC - ul. Slowackiego 8, Warszawa").toList)) =
      finaliseLocation (("TRANSACTION DESC - ul. Slowackiego 8, Warszawa").toList) ∧
    finaliseLocation (finaliseLocation (("ul. Testowa 12, Warszawa").toList)) =
      finaliseLocation (("ul. Testowa 12, Warszawa").toList) := by
  refine ⟨?_, ?_, ?_⟩ <;> decide

/-- C7: structured-block priority.  Whenever some part yields a structured
parse, the extraction returns exactly the finalisation of the first such
parse (before any lower tier is consulted); on the spec's example the parse
joins address and city as `"{address}, {city}"` and the result contains
"testowa 12" and the diacritic-restored "poznań". -/
theorem claim_C7_structured_priority :
    (∀ (v : PyVal) (c : List Char), pyNullish v = false →
      (splitParts v).findSome? parseStructuredPart = some c →
      extract_location_from_data v = finaliseLocation c) ∧
    extract_location_from_data
        (PyVal.str "lokalizacja: adres: ul. Testowa 12 miasto: Poznan kraj: Polska") =
      ("ul. Testowa 12, poznań").toList ∧
    containsSubB (("ul. Testowa 12, poznań").toList.map pyLowerChar)
      (("testowa 12").toList) = true ∧
    containsSubB (("ul. Testowa 12, poznań").toList.map pyLowerChar)
      (("poznań").toList) = true := by
  refine ⟨?_, by decide, by decide, by decide⟩
  intro v c h1 h2
  unfold extract_location_from_data
  rw [if_neg (by simp [h1])]
  unfold extractFromParts
  rw [h2]

/-- C7 witness: the priority statement applied at the spec's structured
example. -/
theorem claim_C7_structured_priority_witness :
    extract_location_from_data
        (PyVal.str "lokalizacja: adres: ul. Testowa 12 miasto: Poznan kraj: Polska") =
      finaliseLocation (("ul. Testowa 12, Poznan").toList) :=
  claim_C7_structured_priority.1
    (PyVal.str "lokalizacja: adres: ul. Testowa 12 miasto: Poznan kraj: Polska")
    (("ul. Testowa 12, Poznan").toList) (by decide) (by decide)

/-- C8: dash fallback.  When no part yields a structured parse and some part
yields a dash candidate, the extraction returns the finalisation of the
first dash candidate; on the spec's example the result contains
"słowackiego" and "warszawa". -/
theorem claim_C8_dash_fallback :
    (∀ (v : PyVal) (c : List Char), pyNullish v = false →
      (splitParts v).findSome? parseStructuredPart = Option.none →
      (splitParts v).findSome? extractDashPart = some c →
      extract_location_from_data v = finaliseLocation c) ∧
    extract_location_from_data
        (PyVal.str "TRANSACTION DESC - ul. Slowackiego 8, Warszawa") =
      ("ul. słowackiego 8, Warszawa").toList ∧
    containsSubB (("ul. słowackiego 8, Warszawa").toList.map pyLowerChar)
      (("słowackiego").toList) = true ∧
    containsSubB (("ul. słowackiego 8, Warszawa").toList.map pyLowerChar)
      (("warszawa").toList) = true := by
  refine ⟨?_, by decide, by decide, by decide⟩
  intro v c h1 h2 h3
  unfold extract_location_from_data
  rw [if_neg (by simp [h1])]
  unfold extractFromParts
  rw [h2, h3]

/-- C8 witness: the dash statement applied at the spec's dash example. -/
theorem claim_C8_dash_fallback_witness :
    extract_location_from_data
        (PyVal.str "TRANSACTION DESC - ul. Slowackiego 8, Warszawa") =
      finaliseLocation (("ul. Slowackiego 8, Warszawa").toList) :=
  claim_C8_dash_fallback.1
    (PyVal.str "TRANSACTION DESC - ul. Slowackiego 8, Warszawa")
    (("ul. Slowackiego 8, Warszawa").toList) (by decide) (by decide) (by decide)

/-- C9: non-string numeric inputs are stringified.  CPython renders the
float `123.45` as the shortest repr `"123.45"` (modelled by the `repr` field
of `PyVal.num`); that text fails the address heuristic (six characters, not
more than eight) and is returned by the generic fallback tier. -/
theorem claim_C9_numeric_fallback :
    looksLikeAddress (("123.45").toList) = false ∧
    extract_location_from_data (PyVal.num false "123.45") = ("123.45").toList := by
  decide

/-- C10: single-pass prefix stripping.  The metadata-prefix list is folded
over exactly once in its fixed order, so for input
`"lokalizacja: adres: ul. Testowa 12"` only the `"lokalizacja:"` prefix is
removed (the `"adres:"` entries were already tried earlier in the order) and
the literal token "adres" survives into the URL-decoded link. -/
theorem claim_C10_single_pass_strip :
    create_google_maps_link (some (("lokalizacja: adres: ul. Testowa 12").toList)) =
      mapsUrlHead ++ ("adres%2C%20ul.%20Testowa%2012").toList ∧
    containsSubB (pyUnquote (("adres%2C%20ul.%20Testowa%2012").toList))
      (("adres").toList) = true := by
  decide
